import Mathlib

/-!
Verification of the snapshot-runner library (`src/lib.rs`) against its
natural-language specification.

Modelling conventions:
* The fixture text is a `List Char`; offsets count characters.  The source
  tracks byte offsets into UTF-8 text (via pointer arithmetic in `offset`);
  on the structural properties studied here the two coincide positionally,
  since the source never splits inside a character.
* Filesystem and console effects are made explicit: the sibling `<stem>.
  <identifier>.new` patch file becomes an `Option Patch` value threaded
  through the comparator, read/IO failures become boolean flags on a
  fixture, and `Result`-bearing control flow becomes `Except`.
* The function under test `F: Fn(&SnapshotInputs) -> String` together with
  `std::panic::catch_unwind` becomes a function into `Option (List Char)`,
  `none` standing for an abnormal termination (panic).
-/

namespace SnapshotRunner

/-- String literal helper: the characters of a Lean string literal. -/
def strL (s : String) : List Char := s.toList

/-- Unicode `White_Space`, the set matched by the `regex` crate's `\s`
(Unicode mode, the default), used in `^\s*\[...\]\s*$` (lib.rs:167). -/
def isWs (c : Char) : Bool :=
  decide (c.toNat = 9) || decide (c.toNat = 10) || decide (c.toNat = 11) ||
  decide (c.toNat = 12) || decide (c.toNat = 13) || decide (c.toNat = 32) ||
  decide (c.toNat = 133) || decide (c.toNat = 160) || decide (c.toNat = 5760) ||
  (decide (8192 ≤ c.toNat) && decide (c.toNat ≤ 8202)) ||
  decide (c.toNat = 8232) || decide (c.toNat = 8233) || decide (c.toNat = 8239) ||
  decide (c.toNat = 8287) || decide (c.toNat = 12288)

/-- The character class `[[:alpha:]\.-_]` of the header regex (lib.rs:167).
In the `regex` crate `[:alpha:]` is the ASCII class `A-Z`/`a-z`, and
`\.-_` is the RANGE from `\.` (U+002E) to `_` (U+005F): the class is the
union of ASCII letters with codepoints 46..95.  (Note: this range contains
digits, `/ : ; < = > ? @ [ \ ] ^ _` and does NOT contain `-`.) -/
def classChar (c : Char) : Bool :=
  ((decide (65 ≤ c.toNat) && decide (c.toNat ≤ 90)) ||
   (decide (97 ≤ c.toNat) && decide (c.toNat ≤ 122))) ||
  (decide (46 ≤ c.toNat) && decide (c.toNat ≤ 95))

/-- Strip leading and trailing `\s` characters (the effect of the greedy
anchored `^\s*`/`\s*$` around the bracketed group). -/
def trimWs (l : List Char) : List Char :=
  ((l.dropWhile isWs).reverse.dropWhile isWs).reverse

/-- The match (with its capture group) of `^\s*\[([[:alpha:]\.-_]+)\]\s*$`
(lib.rs:167,179) on one line.  Since no `\s` character is in the class and
`]` is, the regex matches iff the `\s`-trimmed line is `[` ++ mid ++ `]`
with `mid` nonempty and all of `mid` in the class; the (greedy) capture is
then exactly `mid`. -/
def headerCapture (l : List Char) : Option (List Char) :=
  match trimWs l with
  | '[' :: rest =>
    if rest.getLast? = some ']' ∧ rest.dropLast ≠ [] ∧ rest.dropLast.all classChar = true
    then some rest.dropLast else none
  | _ => none

/-- Modelled from the spec's words (for comparison with `headerCapture`,
claim C2): a character drawn from the set consisting of letters, `.`,
`-` and `_`. -/
def specHeaderChar (c : Char) : Bool :=
  c.isAlpha || decide (c = '.') || decide (c = '-') || decide (c = '_')

/-- Modelled from the spec's words (for comparison with `headerCapture`,
claim C2): after trimming surrounding whitespace the line is exactly `[`,
one-or-more characters from {letters, `.`, `-`, `_`}, then `]`. -/
def specIsHeader (l : List Char) : Bool :=
  match trimWs l with
  | '[' :: rest =>
    (rest.getLast? == some ']') && !rest.dropLast.isEmpty && rest.dropLast.all specHeaderChar
  | _ => false

/-- Strip one trailing `\r` from a reversed-accumulator line, then restore
order (the `\r\n` handling of Rust's `str::lines`, which removes a `\r`
only in front of a removed `\n`). -/
def stripCRrev (accRev : List Char) : List Char :=
  match accRev with
  | [] => []
  | c :: t => if c = '\r' then t.reverse else (c :: t).reverse

/-- Worker for `linesWithOffsets`: `s` is the offset of the current line's
first character, `acc` holds the current line's characters in reverse. -/
def linesAux : Nat → List Char → List Char → List (Nat × List Char)
  | s, acc, [] => if acc.isEmpty then [] else [(s, acc.reverse)]
  | s, acc, c :: rest =>
    if c = '\n' then (s, stripCRrev acc) :: linesAux (s + acc.length + 1) [] rest
    else linesAux s (c :: acc) rest

/-- Rust's `str::lines()` paired with each line's start offset within the
text: the model of `entry_file.lines()` together with
`offset(&entry_file, line)` (lib.rs:178,180,259-263), which computes each
line's start offset in the parent text by pointer arithmetic.  Lines are
split at `\n`, a `\r` directly before a split `\n` is removed, and the
final line ending is optional. -/
def linesWithOffsets (src : List Char) : List (Nat × List Char) :=
  linesAux 0 [] src

/-- A closed section as accumulated by the parsing loop: the Lean image of
`CurrentSection` (lib.rs:131-138) after its `to`/`last_line` fields got
their final values.  `hFrom` is the field `from` (start of the header
line), `iFrom` is `from_inner` (just past the header's own text), `endOff`
is `to`, `lastLine` is `last_line`, `line` is `line`. -/
structure RawSec where
  name : List Char
  hFrom : Nat
  iFrom : Nat
  endOff : Nat
  lastLine : Option (Nat × Nat)
  line : Nat
deriving DecidableEq

/-- A still-open section: `CurrentSection` before `to`/`last_line` are
assigned at closing time (the initial `to: offset + len` of lib.rs:196 is
always overwritten before use and is not carried). -/
structure OpenSec where
  name : List Char
  hFrom : Nat
  iFrom : Nat
  line : Nat
deriving DecidableEq

/-- Closing a section when a new header at offset `off` (text length `len`)
is found: `current_section.to = offset; current_section.last_line =
Some((offset, offset + len))` (lib.rs:184-185). -/
def closeMid (c : OpenSec) (off len : Nat) : RawSec :=
  ⟨c.name, c.hFrom, c.iFrom, off, some (off, off + len), c.line⟩

/-- Closing the final section at end of text: `current_section.to =
entry_file.len()` with `last_line` still `None` (lib.rs:203-204). -/
def closeEnd (c : OpenSec) (srcLen : Nat) : RawSec :=
  ⟨c.name, c.hFrom, c.iFrom, srcLen, none, c.line⟩

/-- The parsing loop of `test_snapshots_inner` (lib.rs:176-209) over the
enumerated lines, producing the closed sections in scan order.  `il` is
`input_len = entry_file.lines().count()` (lib.rs:177), `hi` is
`entry_file.len()`, `idx` the running `line_idx` of `enumerate()`.  On a
header match a possibly open section is closed and a new one opened with
`from = offset`, `from_inner = offset + len`, `line = input_len +
line_idx` (lib.rs:192-199). -/
def scanAux (il hi : Nat) : Nat → List (Nat × List Char) → Option OpenSec → List RawSec
  | _, [], none => []
  | _, [], some c => [closeEnd c hi]
  | idx, (off, l) :: rest, cur =>
    match headerCapture l, cur with
    | none, cur' => scanAux il hi (idx + 1) rest cur'
    | some nm, none =>
      scanAux il hi (idx + 1) rest (some ⟨nm, off, off + l.length, il + idx⟩)
    | some nm, some c =>
      closeMid c off l.length :: scanAux il hi (idx + 1) rest (some ⟨nm, off, off + l.length, il + idx⟩)

/-- All sections of one fixture text, in scan order (before they are keyed
into the `HashMap`, whose insert-overwrite lookup is modelled by
`lookupLast` below). -/
def parseRaw (src : List Char) : List RawSec :=
  scanAux (linesWithOffsets src).length src.length 0 (linesWithOffsets src) none

/-- Offset of the first line matching the header regex in a given line
list, or `hi` when there is none. -/
def firstHdrOffIn (hi : Nat) : List (Nat × List Char) → Nat
  | [] => hi
  | (off, l) :: rest => if (headerCapture l).isSome then off else firstHdrOffIn hi rest

/-- Offset of the first well-formed header line of the text (text length
when there is no header; in that case the parser produces no sections). -/
def firstHeaderOff (src : List Char) : Nat :=
  firstHdrOffIn src.length (linesWithOffsets src)

/-- `EntryKind` (lib.rs:62-66). -/
inductive EntryKind
  | Input
  | Expected
deriving DecidableEq

/-- `Entry` (lib.rs:68-77) restricted to its pure data: the `entry` path
and `modified` filesystem metadata, which only decorate diagnostics and
patch timestamps, are omitted.  `sectionText` is the borrowed slice
`section: &source[from..to]`, `lastLineText` the slice `last_line`. -/
structure Entry where
  kind : EntryKind
  name : List Char
  line : Nat
  sectionText : List Char
  lastLineText : List Char
deriving DecidableEq

/-- The characters of `"expected."`. -/
def expectedDotL : List Char := strL "expected."

/-- Kind selection of `into_entry` (lib.rs:142-146): a section whose name
starts with `expected.` is Expected-kind, every other one Input-kind. -/
def entryKindOf (name : List Char) : EntryKind :=
  if name.take 9 = expectedDotL then EntryKind.Expected else EntryKind.Input

/-- Start offset stored by `into_entry` (lib.rs:142-146): `from` (header
line included) for an Expected section, `from_inner` (just past the header
text) for an Input section. -/
def entryStartOf (s : RawSec) : Nat :=
  match entryKindOf s.name with
  | EntryKind.Expected => s.hFrom
  | EntryKind.Input => s.iFrom

/-- The slice `&source[a..b]` (well-formed in every use below: `a ≤ b ≤
src.length` always holds where this is applied). -/
def extract (src : List Char) (a b : Nat) : List Char :=
  (src.drop a).take (b - a)

/-- `CurrentSection::into_entry` (lib.rs:140-164), minus the
`fs::metadata` read (I/O, used only for the patch timestamp).  `last_line`
is `&source[f..t]` when recorded, else the empty slice `&source[to..to]`. -/
def intoEntry (src : List Char) (s : RawSec) : Entry :=
  { kind := entryKindOf s.name
    name := s.name
    line := s.line
    sectionText := extract src (entryStartOf s) s.endOff
    lastLineText :=
      match s.lastLine with
      | some (a, b) => extract src a b
      | none => extract src s.endOff s.endOff }

/-- The entries of one fixture in scan order (the values inserted into the
`sections` map, lib.rs:186-189 and 205-208). -/
def parseEntries (src : List Char) : List Entry :=
  (parseRaw src).map (intoEntry src)

/-- The byte range an entry stores, `(start of its `section` slice, its
`to`)`: header-inclusive for Expected sections, header-exclusive for Input
sections, mirroring `into_entry`. -/
def entryRange (s : RawSec) : Nat × Nat := (entryStartOf s, s.endOff)

/-- `HashMap` insert-overwrite lookup over the scan-ordered entry list:
`sections.insert(name, e)` keyed by name makes the LAST entry of a given
name the visible one (duplicate names silently overwrite, lib.rs:186). -/
def lookupLast (es : List Entry) (k : List Char) : Option Entry :=
  (es.filter (fun e => e.name = k)).getLast?

/-- The line lists handed to the external diff capability: both sides of
the comparison are split with `str::lines()` (lib.rs:18-19). -/
def rustLines (s : List Char) : List (List Char) :=
  (linesWithOffsets s).map (fun pl => pl.2)

/-- The sibling patch file's content, as far as the claims observe it: the
anchor offset `PatchOptions { offset: entry.line }` (lib.rs:49) and the two
compared line lists.  The line-diff algorithm itself and the
filename/timestamp labels are external collaborators (spec §1) and are not
modelled further. -/
structure Patch where
  offset : Nat
  expectedLines : List (List Char)
  actualLines : List (List Char)
deriving DecidableEq

/-- Result of `assert_section`: `ok` is whether it returned `Ok(())`
(`false` covers both the `bail!("failed")` mismatch and a patch-write or
stale-patch-delete I/O error, which the caller treats alike);
`sibling` is the sibling patch file afterwards; `displayOffset` is
`Some` of the offset the human diff display was anchored at
(`DisplayOptions { offset: entry.line }`, lib.rs:26) when one was
rendered. -/
structure AssertOut where
  ok : Bool
  sibling : Option Patch
  displayOffset : Option Nat
deriving DecidableEq

/-- `assert_section` (lib.rs:10-60).  `expected` is
`format!("{}{}", entry.section, entry.last_line)`.  On mismatch the diff
is displayed anchored at `entry.line`, the sibling file is written with
the patch (unless the write fails: `ioFails` models a `File::create`/
`write!` error, in which case the file's prior state is kept) and the
function returns `Err`.  On a byte-identical comparison an existing
sibling file is removed (`ioFails` modelling a `remove_file` error,
returned as `Err` with the file kept). -/
def assertSection (e : Entry) (actual : List Char) (sibling : Option Patch)
    (ioFails : Bool) : AssertOut :=
  let expected := e.sectionText ++ e.lastLineText
  if expected = actual then
    match sibling with
    | some _ => if ioFails then ⟨false, sibling, none⟩ else ⟨true, none, none⟩
    | none => ⟨true, none, none⟩
  else
    if ioFails then ⟨false, sibling, some e.line⟩
    else ⟨false, some ⟨e.line, rustLines expected, rustLines actual⟩, some e.line⟩

/-- `format!("expected.{}", section_name)` (lib.rs:211). -/
def secNameOf (ident : List Char) : List Char := expectedDotL ++ ident

/-- `format!("[{}]\n{}\n\n{}", section_name, output, section.last_line)`
(lib.rs:225): the actual text rebuilt around the function's output. -/
def actualOf (secName out ll : List Char) : List Char :=
  '[' :: (secName ++ (']' :: '\n' :: (out ++ ('\n' :: '\n' :: ll))))

/-- The Input-kind entries of a fixture as an association list in scan
order: the data of `SnapshotInputs` (lib.rs:79-98,217-221).  The
`HashMap`'s duplicate-key overwrite is realised by the last-wins lookup
`getStr`. -/
def inputsOf (src : List Char) : List (List Char × List Char) :=
  ((parseEntries src).filter (fun e => e.kind = EntryKind.Input)).map
    (fun e => (e.name, e.sectionText))

/-- `SnapshotInputs::get_str` (lib.rs:84-90): raw-text lookup, `none`
modelling the "Could not find a snapshot section called: {key}" error. -/
def getStr (inputs : List (List Char × List Char)) (k : List Char) : Option (List Char) :=
  ((inputs.filter (fun p => p.1 = k)).getLast?).map (fun p => p.2)

/-- Terminal state of one fixture (spec §4.3): `Mismatched` covers every
`Err` from `assert_section` (content mismatch as well as a patch-file
I/O error), which the loop at lib.rs:226-234 treats identically. -/
inductive Outcome
  | Skipped
  | Matched
  | Mismatched
  | Panicked
deriving DecidableEq

/-- What one iteration of the fixture loop leaves behind: the fixture's
outcome, the sibling patch file afterwards, and the offset the display
diff was anchored at (if any was printed). -/
structure FixtureResult where
  outcome : Outcome
  sibling : Option Patch
  displayOffset : Option Nat
deriving DecidableEq

/-- One fixture as the batch sees it: its text, its current sibling patch
file, and two failure switches — `readFails` models `glob`/`read_to_string`
(or `fs::metadata`) errors, which propagate with `?` (lib.rs:173-174),
`ioFails` models sibling-file write/delete errors inside
`assert_section`. -/
structure Fixture where
  src : List Char
  sibling : Option Patch
  readFails : Bool
  ioFails : Bool
deriving DecidableEq

/-- The per-fixture body of `test_snapshots_inner` (lib.rs:175-244): parse
the sections, look up `expected.<ident>` (skip when absent), run the
function under test on the Input sections (catching a panic), and
otherwise compare via `assert_section`. -/
def processFixture (ident : List Char)
    (f : List (List Char × List Char) → Option (List Char)) (fx : Fixture) :
    FixtureResult :=
  match lookupLast (parseEntries fx.src) (secNameOf ident) with
  | none => ⟨Outcome.Skipped, fx.sibling, none⟩
  | some sec =>
    match f (inputsOf fx.src) with
    | none => ⟨Outcome.Panicked, fx.sibling, none⟩
    | some out =>
      let a := assertSection sec (actualOf (secNameOf ident) out sec.lastLineText)
        fx.sibling fx.ioFails
      ⟨if a.ok then Outcome.Matched else Outcome.Mismatched, a.sibling, a.displayOffset⟩

/-- The fixture loop (lib.rs:172-245): a discovery/read error aborts the
whole batch through `?` (modelled by `Except.error ()`); otherwise every
fixture is processed in order. -/
def runFixtures (ident : List Char)
    (f : List (List Char × List Char) → Option (List Char)) :
    List Fixture → Except Unit (List FixtureResult)
  | [] => Except.ok []
  | fx :: rest =>
    if fx.readFails then Except.error ()
    else
      match runFixtures ident f rest with
      | Except.ok rs => Except.ok (processFixture ident f fx :: rs)
      | Except.error e => Except.error e

/-- `ProcessingTally` (spec §3): the counters `processed`, `successes`,
`skipped` of lib.rs:169-171. -/
structure Tally where
  processed : Nat
  succeeded : Nat
  skipped : Nat
deriving DecidableEq

/-- One loop iteration's effect on the counters (lib.rs:227-244):
`successes += 1` only on `Ok` from `assert_section`, `processed += 1`
whenever the expected section was present, `skipped += 1` otherwise. -/
def stepTally (t : Tally) (o : Outcome) : Tally :=
  match o with
  | Outcome.Skipped => ⟨t.processed, t.succeeded, t.skipped + 1⟩
  | Outcome.Matched => ⟨t.processed + 1, t.succeeded + 1, t.skipped⟩
  | Outcome.Mismatched => ⟨t.processed + 1, t.succeeded, t.skipped⟩
  | Outcome.Panicked => ⟨t.processed + 1, t.succeeded, t.skipped⟩

/-- The tally accumulated over a finished batch. -/
def tallyOf (rs : List FixtureResult) : Tally :=
  rs.foldl (fun t r => stepTally t r.outcome) ⟨0, 0, 0⟩

/-- Overall result of `test_snapshots_inner`: a structural
(discovery/read) error, or the summary with `bail!("Some tests failed")`
iff `successes != processed` (lib.rs:253-255). -/
inductive RunOutcome
  | discoveryFailed
  | testsFailed (t : Tally)
  | passed (t : Tally)
deriving DecidableEq

/-- `test_snapshots_inner` (lib.rs:127-257) over an abstract fixture list
(the `glob` enumeration is an external collaborator). -/
def testSnapshotsInner (ident : List Char)
    (f : List (List Char × List Char) → Option (List Char)) (fxs : List Fixture) :
    RunOutcome :=
  match runFixtures ident f fxs with
  | Except.error _ => RunOutcome.discoveryFailed
  | Except.ok rs =>
    if (tallyOf rs).succeeded = (tallyOf rs).processed then RunOutcome.passed (tallyOf rs)
    else RunOutcome.testsFailed (tallyOf rs)

/-- A function under test that ignores its inputs and returns `out`. -/
def fConst (out : List Char) : List (List Char × List Char) → Option (List Char) :=
  fun _ => some out

/-- A function under test that panics on every input. -/
def fPanic : List (List Char × List Char) → Option (List Char) :=
  fun _ => none

/-! Predicates used to state the partition claims. -/

/-- Every position of `[lo, hi)` lies in some range of the list. -/
def covers (rs : List (Nat × Nat)) (lo hi : Nat) : Prop :=
  ∀ x, lo ≤ x → x < hi → ∃ r ∈ rs, r.1 ≤ x ∧ x < r.2

/-- Every range of the list lies inside `[lo, hi)`. -/
def within (rs : List (Nat × Nat)) (lo hi : Nat) : Prop :=
  ∀ r ∈ rs, lo ≤ r.1 ∧ r.2 ≤ hi

/-- No two ranges of the list share a position. -/
def pairwiseDisjoint (rs : List (Nat × Nat)) : Prop :=
  rs.Pairwise (fun r r' => r.2 ≤ r'.1 ∨ r'.2 ≤ r.1)

/-- The ranges are consecutive half-open intervals starting at `lo` and
ending exactly at `hi`: each range starts where the previous one ended. -/
def chainedFrom : Nat → Nat → List (Nat × Nat) → Prop
  | lo, hi, [] => lo = hi
  | lo, hi, r :: rest => r.1 = lo ∧ lo ≤ r.2 ∧ chainedFrom r.2 hi rest

/-- The header-inclusive range of a section: from its header line's start
offset (`CurrentSection.from`) to its `to`. -/
def hRange (s : RawSec) : Nat × Nat := (s.hFrom, s.endOff)

/-! Invariants of the scanning loop, used to prove the parser claims. -/

/-- Offsets of a line list are monotone: each line starts at or after
`lb`, ends within `hi`, and the lines after it start at or after its
end. -/
def offsMono : Nat → Nat → List (Nat × List Char) → Prop
  | _, _, [] => True
  | lb, hi, (off, l) :: rest => lb ≤ off ∧ off + l.length ≤ hi ∧ offsMono (off + l.length) hi rest

/-- Well-formedness of the closed-section list produced by the scan,
relative to the text length `hi` and the line list `lws`: sections chain
(`lo` is the first header's start, each section ends where the next one's
header starts, the last ends at `hi`), every section's header is a real
line of the text matched by the header regex, `from_inner` is just past
that header's text, and `last_line` spans exactly the next section's
header line (absent for the final section). -/
def GoodList (hi : Nat) (lws : List (Nat × List Char)) : Nat → List RawSec → Prop
  | lo, [] => lo = hi
  | lo, s :: rest =>
    s.hFrom = lo ∧ s.hFrom ≤ s.iFrom ∧ s.iFrom ≤ s.endOff ∧ s.endOff ≤ hi ∧
    (∃ l, (s.hFrom, l) ∈ lws ∧ headerCapture l = some s.name ∧ s.iFrom = s.hFrom + l.length) ∧
    (match rest with
     | [] => s.endOff = hi ∧ s.lastLine = none
     | s' :: _ => s.endOff = s'.hFrom ∧ s.lastLine = some (s'.hFrom, s'.iFrom)) ∧
    GoodList hi lws s.endOff rest

/-- Invariant of the still-open section during the scan: its bounds are
ordered, it ends before the yet-unscanned lines start (`lb`), and its
header is a real header line of the text. -/
def curOK (lws : List (Nat × List Char)) (lb : Nat) : Option OpenSec → Prop
  | none => True
  | some c => c.hFrom ≤ c.iFrom ∧ c.iFrom ≤ lb ∧
      ∃ l, (c.hFrom, l) ∈ lws ∧ headerCapture l = some c.name ∧ c.iFrom = c.hFrom + l.length

/-- Where the chain of closed sections will start: at the open section's
header if one is open, else at the first header among the remaining
lines. -/
def startPt (hi : Nat) : Option OpenSec → List (Nat × List Char) → Nat
  | some c, _ => c.hFrom
  | none, ts => firstHdrOffIn hi ts

/-! Concrete fixtures used as witnesses and counterexamples. -/

/-- Fixture whose `expected.t` section body is rebuilt verbatim by output
`y` (the trailing blank line matches the `\n\n` of the actual format). -/
def exM : List Char := strL "[a]\nx\n[expected.t]\ny\n\n"

/-- Fixture whose `expected.t` section cannot be matched by any output
(its stored text ends in a single `\n` while the rebuilt actual always
ends in `\n\n`). -/
def exA : List Char := strL "[a]\nx\n[expected.t]\ny\n"

/-- Fixture without an `expected.t` section. -/
def exSkip : List Char := strL "[a]\nx\n"

/-- Fixture with text before its first header line. -/
def exLead : List Char := strL "junk\n[a]\nx\n[expected.t]\ny\n"

/-- Two-line fixture whose only header is on (1-based) line 1. -/
def ex4 : List Char := strL "[a]\nx"

/-- The test identifier `t`. -/
def tIdent : List Char := strL "t"

/-- The output `y`. -/
def yOut : List Char := strL "y"

/-- A stale sibling patch file. -/
def dummyPatch : Patch := ⟨0, [], []⟩

/-! Helper lemmas. -/

theorem takeAppend (a b : List Char) : (a ++ b).take a.length = a := by
  induction a with
  | nil => rfl
  | cons x xs ih => simp [List.take_succ_cons, ih]

theorem dropAppend (a b : List Char) : (a ++ b).drop a.length = b := by
  induction a with
  | nil => rfl
  | cons x xs ih => simp [ih]

theorem take_of_eq_append (u a b : List Char) (h : u = a ++ b) :
    u.take a.length = a := by
  rw [h]; exact takeAppend a b

theorem stripCRrev_length (acc : List Char) :
    (stripCRrev acc).length ≤ acc.length := by
  cases acc with
  | nil => simp [stripCRrev]
  | cons c t =>
    by_cases h : c = '\r'
    · simp [stripCRrev, h]
    · simp [stripCRrev, h]

theorem offsMono_anti (hi : Nat) :
    ∀ (ts : List (Nat × List Char)) (lb lb' : Nat), lb' ≤ lb →
      offsMono lb hi ts → offsMono lb' hi ts := by
  intro ts
  cases ts with
  | nil => intro _ _ _ _; trivial
  | cons hd rest =>
    obtain ⟨off, l⟩ := hd
    intro lb lb' hle h
    exact ⟨le_trans hle h.1, h.2.1, h.2.2⟩

theorem linesAux_text (src : List Char) :
    ∀ (cs : List Char) (s : Nat) (acc : List Char),
      acc.reverse ++ cs = src.drop s →
      ∀ pl ∈ linesAux s acc cs, (src.drop pl.1).take pl.2.length = pl.2 := by
  intro cs
  induction cs with
  | nil =>
    intro s acc h pl hm
    simp only [linesAux] at hm
    by_cases he : acc.isEmpty
    · simp [he] at hm
    · simp [he] at hm
      subst hm
      exact take_of_eq_append _ acc.reverse [] (by simpa using h.symm)
  | cons c rest ih =>
    intro s acc h pl hm
    simp only [linesAux] at hm
    by_cases hc : c = '\n'
    · subst hc
      simp only [if_pos rfl] at hm
      rcases List.mem_cons.mp hm with hm | hm
      · subst hm
        cases acc with
        | nil =>
          simp only [stripCRrev]
          exact take_of_eq_append _ [] _ rfl
        | cons a t =>
          by_cases ha : a = '\r'
          · subst ha
            simp only [stripCRrev, if_pos rfl]
            refine take_of_eq_append _ t.reverse ('\r' :: '\n' :: rest) ?_
            rw [← h]; simp
          · simp only [stripCRrev, if_neg ha]
            refine take_of_eq_append _ (a :: t).reverse ('\n' :: rest) ?_
            rw [← h]
      · refine ih (s + acc.length + 1) [] ?_ pl hm
        have h2 : src.drop (s + acc.length + 1) = rest := by
          have : src.drop (s + acc.length + 1) = (src.drop s).drop (acc.length + 1) := by
            rw [List.drop_drop, Nat.add_assoc]
          rw [this, ← h]
          have h3 : acc.reverse ++ '\n' :: rest = (acc.reverse ++ ['\n']) ++ rest := by
            simp
          rw [h3]
          have h4 : acc.length + 1 = (acc.reverse ++ ['\n']).length := by simp
          rw [h4, dropAppend]
        simpa using h2.symm
    · simp only [if_neg hc] at hm
      refine ih s (c :: acc) ?_ pl hm
      rw [← h]; simp

theorem linesAux_mono (hi : Nat) :
    ∀ (cs : List Char) (s : Nat) (acc : List Char),
      s + acc.length + cs.length ≤ hi →
      offsMono s hi (linesAux s acc cs) := by
  intro cs
  induction cs with
  | nil =>
    intro s acc h
    simp only [linesAux]
    by_cases he : acc.isEmpty
    · simp [he, offsMono]
    · simp only [he, if_neg]
      refine ⟨le_refl s, ?_, trivial⟩
      simp only [List.length_reverse]
      simpa using h
  | cons c rest ih =>
    intro s acc h
    simp only [linesAux]
    by_cases hc : c = '\n'
    · subst hc
      simp only [if_pos rfl]
      refine ⟨le_refl s, ?_, ?_⟩
      · have := stripCRrev_length acc
        simp only [List.length_cons] at h
        omega
      · have hm := ih (s + acc.length + 1) [] (by simp only [List.length_cons] at h ⊢; simpa using (by omega : s + acc.length + 1 + rest.length ≤ hi))
        refine offsMono_anti hi _ _ _ ?_ hm
        have := stripCRrev_length acc
        omega
    · simp only [if_neg hc]
      refine ih s (c :: acc) ?_
      simp only [List.length_cons] at h ⊢
      omega

/-! Step equations of the scanning loop. -/

theorem scanAux_cons_none {il hi idx off : Nat} {l : List Char}
    {rest : List (Nat × List Char)} {cur : Option OpenSec}
    (h : headerCapture l = none) :
    scanAux il hi idx ((off, l) :: rest) cur = scanAux il hi (idx + 1) rest cur := by
  simp [scanAux, h]

theorem scanAux_cons_some_none {il hi idx off : Nat} {l nm : List Char}
    {rest : List (Nat × List Char)} (h : headerCapture l = some nm) :
    scanAux il hi idx ((off, l) :: rest) none =
      scanAux il hi (idx + 1) rest (some ⟨nm, off, off + l.length, il + idx⟩) := by
  simp [scanAux, h]

theorem scanAux_cons_some_some {il hi idx off : Nat} {l nm : List Char}
    {rest : List (Nat × List Char)} {c : OpenSec} (h : headerCapture l = some nm) :
    scanAux il hi idx ((off, l) :: rest) (some c) =
      closeMid c off l.length ::
        scanAux il hi (idx + 1) rest (some ⟨nm, off, off + l.length, il + idx⟩) := by
  simp [scanAux, h]

theorem scanAux_some_head (il hi : Nat) :
    ∀ (ts : List (Nat × List Char)) (idx : Nat) (c : OpenSec),
      ∃ s tl, scanAux il hi idx ts (some c) = s :: tl ∧
        s.hFrom = c.hFrom ∧ s.iFrom = c.iFrom := by
  intro ts
  induction ts with
  | nil => intro idx c; exact ⟨closeEnd c hi, [], rfl, rfl, rfl⟩
  | cons hd rest ih =>
    intro idx c
    obtain ⟨off, l⟩ := hd
    cases hcap : headerCapture l with
    | none => rw [scanAux_cons_none hcap]; exact ih (idx + 1) c
    | some nm =>
      rw [scanAux_cons_some_some hcap]
      exact ⟨closeMid c off l.length, _, rfl, rfl, rfl⟩

theorem curOK_anti (lws : List (Nat × List Char)) {lb lb' : Nat}
    (hle : lb ≤ lb') (cur : Option OpenSec) (h : curOK lws lb cur) :
    curOK lws lb' cur := by
  cases cur with
  | none => trivial
  | some c => exact ⟨h.1, le_trans h.2.1 hle, h.2.2⟩

/-- Main invariant of the fixture-parsing loop: starting from lower bound
`lb` with a well-formed open section, the scan of monotone lines produces
a well-formed chained section list. -/
theorem scanAux_good (il hi : Nat) (lws : List (Nat × List Char)) :
    ∀ (ts : List (Nat × List Char)) (idx lb : Nat) (cur : Option OpenSec),
      lb ≤ hi →
      offsMono lb hi ts →
      (∀ t ∈ ts, t ∈ lws) →
      curOK lws lb cur →
      GoodList hi lws (startPt hi cur ts) (scanAux il hi idx ts cur) := by
  intro ts
  induction ts with
  | nil =>
    intro idx lb cur hlb _ _ hcur
    cases cur with
    | none => simp [startPt, firstHdrOffIn, GoodList, scanAux]
    | some c =>
      obtain ⟨h1, h2, h3⟩ := hcur
      show GoodList hi lws c.hFrom [closeEnd c hi]
      exact ⟨rfl, h1, le_trans h2 hlb, le_refl hi, h3, ⟨rfl, rfl⟩, rfl⟩
  | cons hd rest ih =>
    intro idx lb cur hlb hmono hsub hcur
    obtain ⟨off, l⟩ := hd
    obtain ⟨hlboff, hoffhi, hmrest⟩ := hmono
    have hsubrest : ∀ t ∈ rest, t ∈ lws := fun t ht => hsub t (List.mem_cons_of_mem _ ht)
    cases hcap : headerCapture l with
    | none =>
      rw [scanAux_cons_none hcap]
      have hcur' : curOK lws (off + l.length) cur :=
        curOK_anti lws (le_trans hlboff (Nat.le_add_right off l.length)) cur hcur
      have hrec := ih (idx + 1) (off + l.length) cur hoffhi hmrest hsubrest hcur'
      cases cur with
      | none => simpa [startPt, firstHdrOffIn, hcap] using hrec
      | some c => simpa [startPt] using hrec
    | some nm =>
      have hnc : curOK lws (off + l.length)
          (some ⟨nm, off, off + l.length, il + idx⟩) :=
        ⟨Nat.le_add_right off l.length, le_refl _,
          ⟨l, hsub (off, l) (List.mem_cons_self _ _), hcap, rfl⟩⟩
      cases cur with
      | none =>
        rw [scanAux_cons_some_none hcap]
        have hrec := ih (idx + 1) (off + l.length)
          (some ⟨nm, off, off + l.length, il + idx⟩) hoffhi hmrest hsubrest hnc
        simpa [startPt, firstHdrOffIn, hcap] using hrec
      | some c =>
        rw [scanAux_cons_some_some hcap]
        obtain ⟨hc1, hc2, hc3⟩ := hcur
        have htail := ih (idx + 1) (off + l.length)
          (some ⟨nm, off, off + l.length, il + idx⟩) hoffhi hmrest hsubrest hnc
        simp only [startPt] at htail
        obtain ⟨s, tl, heq, hs1, hs2⟩ :=
          scanAux_some_head il hi rest (idx + 1) ⟨nm, off, off + l.length, il + idx⟩
        rw [heq] at htail
        show GoodList hi lws c.hFrom
          (closeMid c off l.length :: scanAux il hi (idx + 1) rest
            (some ⟨nm, off, off + l.length, il + idx⟩))
        rw [heq]
        exact ⟨rfl, hc1, le_trans hc2 hlboff,
          le_trans (Nat.le_add_right off l.length) hoffhi, hc3,
          ⟨hs1.symm, by simp [closeMid, hs1, hs2]⟩, htail⟩

/-- The section list `parseRaw src` is well-formed and chained, starting
at the first header's offset. -/
theorem parseRaw_good (src : List Char) :
    GoodList src.length (linesWithOffsets src) (firstHeaderOff src) (parseRaw src) := by
  have hmono : offsMono 0 src.length (linesWithOffsets src) :=
    linesAux_mono src.length src 0 [] (by simp)
  have h := scanAux_good (linesWithOffsets src).length src.length (linesWithOffsets src)
    (linesWithOffsets src) 0 0 none (Nat.zero_le _) hmono (fun t ht => ht) trivial
  simpa [startPt, firstHeaderOff, parseRaw] using h

/-- Every line of the text reads back verbatim from its recorded offset. -/
theorem lws_text (src : List Char) :
    ∀ pl ∈ linesWithOffsets src, (src.drop pl.1).take pl.2.length = pl.2 :=
  linesAux_text src src 0 [] (by simp)

theorem goodList_mem (hi : Nat) (lws : List (Nat × List Char)) :
    ∀ (rs : List RawSec) (lo : Nat), GoodList hi lws lo rs →
      ∀ s ∈ rs, lo ≤ s.hFrom ∧ s.hFrom ≤ s.iFrom ∧ s.iFrom ≤ s.endOff ∧ s.endOff ≤ hi ∧
        ∃ l, (s.hFrom, l) ∈ lws ∧ headerCapture l = some s.name ∧ s.iFrom = s.hFrom + l.length := by
  intro rs
  induction rs with
  | nil => intro lo _ s hs; cases hs
  | cons s0 rest ih =>
    intro lo hg s hs
    obtain ⟨h1, h2, h3, h4, h5, _hm, hrest⟩ := hg
    rcases List.mem_cons.mp hs with hs | hs
    · subst hs; exact ⟨le_of_eq h1.symm, h2, h3, h4, h5⟩
    · have := ih s0.endOff hrest s hs
      exact ⟨le_trans (le_of_eq h1.symm) (le_trans (le_trans h2 h3) this.1),
        this.2.1, this.2.2.1, this.2.2.2.1, this.2.2.2.2⟩

theorem goodList_chained (hi : Nat) (lws : List (Nat × List Char)) :
    ∀ (rs : List RawSec) (lo : Nat), GoodList hi lws lo rs →
      chainedFrom lo hi (rs.map hRange) := by
  intro rs
  induction rs with
  | nil => intro lo hg; exact hg
  | cons s0 rest ih =>
    intro lo hg
    obtain ⟨h1, h2, h3, _h4, _h5, _hm, hrest⟩ := hg
    exact ⟨h1, le_trans (le_of_eq h1.symm) (le_trans h2 h3), ih s0.endOff hrest⟩

theorem goodList_last (hi : Nat) (lws : List (Nat × List Char)) :
    ∀ (rs : List RawSec) (lo : Nat), GoodList hi lws lo rs →
      ∀ s, rs.getLast? = some s → s.endOff = hi ∧ s.lastLine = none := by
  intro rs
  induction rs with
  | nil => intro lo _ s hs; simp at hs
  | cons s0 rest ih =>
    intro lo hg s hs
    obtain ⟨_h1, _h2, _h3, _h4, _h5, hm, hrest⟩ := hg
    cases rest with
    | nil =>
      simp only [List.getLast?_singleton, Option.some.injEq] at hs
      subst hs; exact hm
    | cons s1 r' =>
      rw [List.getLast?_cons_cons] at hs
      exact ih s0.endOff hrest s hs

theorem chained_le :
    ∀ (rs : List (Nat × Nat)) (lo hi : Nat), chainedFrom lo hi rs → lo ≤ hi := by
  intro rs
  induction rs with
  | nil => intro lo hi h; exact le_of_eq h
  | cons r rest ih => intro lo hi h; exact le_trans h.2.1 (ih r.2 hi h.2.2)

theorem chained_within :
    ∀ (rs : List (Nat × Nat)) (lo hi : Nat), chainedFrom lo hi rs → within rs lo hi := by
  intro rs
  induction rs with
  | nil => intro lo hi _ r hr; cases hr
  | cons r0 rest ih =>
    intro lo hi h r hr
    obtain ⟨h1, h2, h3⟩ := h
    rcases List.mem_cons.mp hr with hr | hr
    · subst hr; exact ⟨le_of_eq h1.symm, chained_le rest r.2 hi h3⟩
    · have := ih r0.2 hi h3 r hr
      exact ⟨le_trans h2 this.1, this.2⟩

theorem chained_covers :
    ∀ (rs : List (Nat × Nat)) (lo hi : Nat), chainedFrom lo hi rs → covers rs lo hi := by
  intro rs
  induction rs with
  | nil =>
    intro lo hi h x hx1 hx2
    subst h; exact absurd hx2 (by omega)
  | cons r0 rest ih =>
    intro lo hi h x hx1 hx2
    obtain ⟨h1, _h2, h3⟩ := h
    by_cases hx : x < r0.2
    · exact ⟨r0, List.mem_cons_self _ _, le_of_eq_of_le h1 hx1, hx⟩
    · obtain ⟨r, hm, hr⟩ := ih r0.2 hi h3 x (le_of_not_lt hx) hx2
      exact ⟨r, List.mem_cons_of_mem _ hm, hr⟩

theorem chained_disjoint :
    ∀ (rs : List (Nat × Nat)) (lo hi : Nat), chainedFrom lo hi rs → pairwiseDisjoint rs := by
  intro rs
  induction rs with
  | nil => intro lo hi _; exact List.Pairwise.nil
  | cons r0 rest ih =>
    intro lo hi h
    obtain ⟨_h1, _h2, h3⟩ := h
    exact List.Pairwise.cons
      (fun r' hr' => Or.inl (chained_within rest r0.2 hi h3 r' hr').1)
      (ih r0.2 hi h3)

theorem goodList_adj (src : List Char) (hi : Nat) :
    ∀ (rs : List RawSec) (lo : Nat), GoodList hi (linesWithOffsets src) lo rs →
      List.Chain' (fun s s' => s.endOff = s'.hFrom ∧
        ∃ l, (s'.hFrom, l) ∈ linesWithOffsets src ∧ headerCapture l = some s'.name ∧
          (intoEntry src s).lastLineText = l) rs := by
  intro rs
  induction rs with
  | nil => intro lo _; exact List.chain'_nil
  | cons s0 rest ih =>
    intro lo hg
    obtain ⟨_h1, _h2, _h3, _h4, _h5, hm, hrest⟩ := hg
    cases rest with
    | nil => exact List.chain'_singleton s0
    | cons s1 r' =>
      obtain ⟨hadj, hll⟩ := hm
      have hrest' := hrest
      obtain ⟨_g1, _g2, _g3, _g4, hw, _gm, _grest⟩ := hrest'
      obtain ⟨l, hlmem, hlcap, hlif⟩ := hw
      refine List.chain'_cons.mpr ⟨⟨hadj, l, hlmem, hlcap, ?_⟩, ih s0.endOff hrest⟩
      have htake := lws_text src (s1.hFrom, l) hlmem
      simp only [intoEntry, hll, extract]
      rw [hlif, Nat.add_sub_cancel_left]
      exact htake

/-! Helper lemmas about the aggregator. -/

theorem tally_fold :
    ∀ (rs : List FixtureResult) (t : Tally),
      (rs.foldl (fun t r => stepTally t r.outcome) t).processed
          = t.processed + rs.countP (fun r => decide (r.outcome = Outcome.Matched ∨
              r.outcome = Outcome.Mismatched ∨ r.outcome = Outcome.Panicked)) ∧
      (rs.foldl (fun t r => stepTally t r.outcome) t).succeeded
          = t.succeeded + rs.countP (fun r => decide (r.outcome = Outcome.Matched)) ∧
      (rs.foldl (fun t r => stepTally t r.outcome) t).skipped
          = t.skipped + rs.countP (fun r => decide (r.outcome = Outcome.Skipped)) := by
  intro rs
  induction rs with
  | nil => intro t; simp
  | cons r rest ih =>
    intro t
    obtain ⟨ih1, ih2, ih3⟩ := ih (stepTally t r.outcome)
    simp only [List.foldl_cons, List.countP_cons, ih1, ih2, ih3]
    cases hr : r.outcome <;> simp [stepTally, hr] <;> omega

theorem processFixture_skipped (ident : List Char)
    (f : List (List Char × List Char) → Option (List Char)) (fx : Fixture) :
    (processFixture ident f fx).outcome = Outcome.Skipped ↔
      lookupLast (parseEntries fx.src) (secNameOf ident) = none := by
  cases hl : lookupLast (parseEntries fx.src) (secNameOf ident) with
  | none => simp [processFixture, hl]
  | some sec =>
    simp only [processFixture, hl]
    cases hf : f (inputsOf fx.src) with
    | none => simp
    | some out =>
      cases hb : (assertSection sec (actualOf (secNameOf ident) out sec.lastLineText)
          fx.sibling fx.ioFails).ok <;> simp [hb]

theorem runFixtures_ok_all (ident : List Char)
    (f : List (List Char × List Char) → Option (List Char)) :
    ∀ fxs : List Fixture, (∀ fx ∈ fxs, fx.readFails = false) →
      runFixtures ident f fxs = Except.ok (fxs.map (processFixture ident f)) := by
  intro fxs
  induction fxs with
  | nil => intro _; rfl
  | cons fx0 rest ih =>
    intro h
    have h0 : fx0.readFails = false := h fx0 (List.mem_cons_self _ _)
    have hr := ih (fun fx hfx => h fx (List.mem_cons_of_mem _ hfx))
    simp [runFixtures, h0, hr]

/-! Claim theorems. -/

/-- Claim C1, counterexample.  The claim says the stored byte ranges of
the parsed sections exactly partition the whole text.  On the fixture
`exA = "[a]\nx\n[expected.t]\ny\n"` the stored ranges (per `into_entry`)
are `[(3, 6), (6, 21)]`: the Input section `a` starts at `from_inner = 3`,
so its own header bytes `0..3` lie in no stored range and position `0` is
uncovered — the ranges do not partition `[0, 21)`. -/
theorem c1_partition_counterexample :
    ¬ (covers ((parseRaw exA).map entryRange) 0 exA.length ∧
       within ((parseRaw exA).map entryRange) 0 exA.length ∧
       pairwiseDisjoint ((parseRaw exA).map entryRange)) := by
  intro h
  have h0 := h.1 0 (le_refl 0) (by decide)
  exact absurd h0 (by decide)

/-- Claim C1 (amended): for every fixture text, the HEADER-INCLUSIVE
ranges of the parsed sections (from each section's header-line start
`from` to its `to`), in scan order, exactly partition the text from the
first well-formed header's offset to the end of the text — no gaps, no
overlaps; each section's last line is verbatim the next section's header
line (and the final section has no recorded last line: its slice is
empty).  The stored (`into_entry`) ranges coincide with these for
Expected sections, while an Input section's stored range further excludes
its own header text. -/
theorem c1_partition_amended (src : List Char) :
    covers ((parseRaw src).map hRange) (firstHeaderOff src) src.length ∧
    within ((parseRaw src).map hRange) (firstHeaderOff src) src.length ∧
    pairwiseDisjoint ((parseRaw src).map hRange) ∧
    List.Chain' (fun s s' => s.endOff = s'.hFrom ∧
      ∃ l, (s'.hFrom, l) ∈ linesWithOffsets src ∧ headerCapture l = some s'.name ∧
        (intoEntry src s).lastLineText = l) (parseRaw src) ∧
    (∀ s, (parseRaw src).getLast? = some s →
      s.endOff = src.length ∧ s.lastLine = none ∧ (intoEntry src s).lastLineText = []) := by
  have hg := parseRaw_good src
  have hch := goodList_chained src.length (linesWithOffsets src) (parseRaw src) _ hg
  refine ⟨chained_covers _ _ _ hch, chained_within _ _ _ hch, chained_disjoint _ _ _ hch,
    goodList_adj src src.length (parseRaw src) _ hg, ?_⟩
  intro s hs
  have hlast := goodList_last src.length (linesWithOffsets src) (parseRaw src) _ hg s hs
  refine ⟨hlast.1, hlast.2, ?_⟩
  simp [intoEntry, hlast.2, extract]

/-- Witness for C1 (amended) at the concrete fixture `exM`: its final
section ends at the text length with no recorded last line. -/
theorem c1_partition_witness :
    (⟨strL "expected.t", 6, 18, 22, none, 7⟩ : RawSec).endOff = exM.length ∧
    (⟨strL "expected.t", 6, 18, 22, none, 7⟩ : RawSec).lastLine = none ∧
    (intoEntry exM ⟨strL "expected.t", 6, 18, 22, none, 7⟩).lastLineText = [] :=
  (c1_partition_amended exM).2.2.2.2 ⟨strL "expected.t", 6, 18, 22, none, 7⟩ (by decide)

/-- Claim C2, code bug.  The claim (and spec) says a line is a header iff,
after trimming, it is `[` + one-or-more of {letters, `.`, `-`, `_`} + `]`.
The regex `^\s*\[([[:alpha:]\.-_]+)\]\s*$` (lib.rs:167) instead uses the
class alpha ∪ U+002E..U+005F, because `\.-_` is a codepoint RANGE: so
`[a-b]` is NOT recognized (`-` is outside the class) although the spec
admits it, while `[a0]` IS recognized (digits are inside the range)
although the spec rejects it; an unrecognized line opens no section. -/
theorem c2_header_class_bug :
    headerCapture (strL "[a-b]") = none ∧ specIsHeader (strL "[a-b]") = true ∧
    headerCapture (strL "[a0]") = some (strL "a0") ∧ specIsHeader (strL "[a0]") = false ∧
    parseRaw (strL "[a-b]\nx") = [] := by decide

/-- Claim C3, counterexample.  The claim says an Input body begins
immediately after the header line WITH its line terminator excluded.  In
`exA = "[a]\nx\n[expected.t]\ny\n"` the header line `[a]` spans `0..3`
and its terminator is at position `3`; the body stored for `a` (and
returned by `get_str`) is the slice `3..6` = `"\nx\n"`, which still
begins with that terminator, not the slice `4..6` = `"x\n"` the claim
describes. -/
theorem c3_input_body_counterexample :
    getStr (inputsOf exA) (strL "a") = some (extract exA 3 6) ∧
    extract exA 3 6 = strL "\nx\n" ∧
    extract exA 3 6 ≠ extract exA 4 6 := by decide

/-- Claim C3 (amended): every Input-kind section's stored body starts
exactly at the end of its header's own text (`from_inner = header offset
+ header text length`) — the header text itself is excluded, so the
function under test never sees it, but the header line's terminator is
NOT excluded and remains at the start of the body. -/
theorem c3_input_body_amended (src : List Char) :
    ∀ s ∈ parseRaw src, entryKindOf s.name = EntryKind.Input →
      ∃ l, (s.hFrom, l) ∈ linesWithOffsets src ∧ headerCapture l = some s.name ∧
        entryStartOf s = s.hFrom + l.length ∧
        (intoEntry src s).sectionText = extract src (s.hFrom + l.length) s.endOff := by
  intro s hs hkind
  obtain ⟨l, hl, hcap, hif⟩ :=
    (goodList_mem src.length (linesWithOffsets src) (parseRaw src) _
      (parseRaw_good src) s hs).2.2.2.2
  refine ⟨l, hl, hcap, ?_, ?_⟩
  · simp [entryStartOf, hkind, hif]
  · simp [intoEntry, entryStartOf, hkind, hif]

/-- Witness for C3 (amended) at the Input section `a` of `exM`. -/
theorem c3_input_body_witness :
    ∃ l, ((⟨strL "a", 0, 3, 6, some (6, 18), 5⟩ : RawSec).hFrom, l) ∈ linesWithOffsets exM ∧
      headerCapture l = some (⟨strL "a", 0, 3, 6, some (6, 18), 5⟩ : RawSec).name ∧
      entryStartOf ⟨strL "a", 0, 3, 6, some (6, 18), 5⟩ =
        (⟨strL "a", 0, 3, 6, some (6, 18), 5⟩ : RawSec).hFrom + l.length ∧
      (intoEntry exM ⟨strL "a", 0, 3, 6, some (6, 18), 5⟩).sectionText =
        extract exM ((⟨strL "a", 0, 3, 6, some (6, 18), 5⟩ : RawSec).hFrom + l.length)
          (⟨strL "a", 0, 3, 6, some (6, 18), 5⟩ : RawSec).endOff :=
  c3_input_body_amended exM ⟨strL "a", 0, 3, 6, some (6, 18), 5⟩ (by decide) (by decide)

/-- Claim C4, code bug.  The claim (and spec) says the recorded `line`
field is the 1-based line number of the section's header line.  The code
computes `line: input_len + line_idx` (lib.rs:198) where `input_len` is
the TOTAL line count of the file: on the two-line fixture `ex4 = "[a]\nx"`
the header on (1-based) line 1 is recorded as line 2.  (The two values
agree only on one-line fixtures.)  The recorded value — correct or not —
is indeed the anchor used for the display diff and the patch, as the
second conjunct group shows on the mismatching run of `exA`: both the
rendered display offset and the written patch offset are the recorded 6,
where the header's 1-based line number is 3. -/
theorem c4_line_field_bug :
    (parseRaw ex4).map RawSec.line = [2] ∧
    (linesWithOffsets ex4).length = 2 ∧
    ¬ (parseRaw ex4).map RawSec.line = [0 + 1] ∧
    processFixture tIdent (fConst yOut) ⟨exA, none, false, false⟩ =
      ⟨Outcome.Mismatched,
        some ⟨6, rustLines (strL "[expected.t]\ny\n"), rustLines (strL "[expected.t]\ny\n\n")⟩,
        some 6⟩ := by decide

/-- Claim C5: if the function under test returns exactly the Expected
section's body (so that the rebuilt actual text `[name]\n<out>\n\n<last
line>` is byte-identical to the stored section text followed by its last
line), the outcome is Matched, any stale sibling patch file is deleted
and none is written — and re-running the same fixture with no sibling
file again yields Matched with no sibling file. -/
theorem c5_matched_idempotent (ident : List Char)
    (f : List (List Char × List Char) → Option (List Char)) (fx : Fixture)
    (sec : Entry) (out : List Char)
    (hio : fx.ioFails = false)
    (hsec : lookupLast (parseEntries fx.src) (secNameOf ident) = some sec)
    (hf : f (inputsOf fx.src) = some out)
    (hbody : sec.sectionText =
      '[' :: (secNameOf ident ++ (']' :: '\n' :: (out ++ ['\n', '\n'])))) :
    processFixture ident f fx = ⟨Outcome.Matched, none, none⟩ ∧
    processFixture ident f ⟨fx.src, none, fx.readFails, fx.ioFails⟩ =
      ⟨Outcome.Matched, none, none⟩ := by
  have heq : sec.sectionText ++ sec.lastLineText =
      actualOf (secNameOf ident) out sec.lastLineText := by
    rw [hbody]; simp [actualOf]
  constructor
  · simp only [processFixture, hsec, hf]
    cases hsib : fx.sibling with
    | none => simp [assertSection, heq]
    | some p => simp [assertSection, heq, hio]
  · simp only [processFixture, hsec, hf]
    simp [assertSection, heq]

/-- Witness for C5 at the fixture `exM` with a stale sibling file. -/
theorem c5_matched_witness :
    processFixture tIdent (fConst yOut) ⟨exM, some dummyPatch, false, false⟩ =
      ⟨Outcome.Matched, none, none⟩ ∧
    processFixture tIdent (fConst yOut) ⟨exM, none, false, false⟩ =
      ⟨Outcome.Matched, none, none⟩ :=
  c5_matched_idempotent tIdent (fConst yOut) ⟨exM, some dummyPatch, false, false⟩
    ⟨EntryKind.Expected, strL "expected.t", 7, strL "[expected.t]\ny\n\n", []⟩ yOut
    rfl (by decide) rfl (by decide)

/-- Claim C6: over any completed batch, `processed` counts exactly the
Matched/Mismatched/Panicked fixtures, `succeeded` exactly the Matched
ones, `skipped` exactly the Skipped ones; a fixture's outcome is Skipped
iff its section map lacks `expected.<identifier>`; and the run passes iff
`succeeded = processed` (so the skip count never affects pass/fail). -/
theorem c6_tally (ident : List Char)
    (f : List (List Char × List Char) → Option (List Char)) (fxs : List Fixture)
    (rs : List FixtureResult) (hok : runFixtures ident f fxs = Except.ok rs) :
    (tallyOf rs).processed = rs.countP (fun r => decide (r.outcome = Outcome.Matched ∨
        r.outcome = Outcome.Mismatched ∨ r.outcome = Outcome.Panicked)) ∧
    (tallyOf rs).succeeded = rs.countP (fun r => decide (r.outcome = Outcome.Matched)) ∧
    (tallyOf rs).skipped = rs.countP (fun r => decide (r.outcome = Outcome.Skipped)) ∧
    (∀ fx ∈ fxs, (processFixture ident f fx).outcome = Outcome.Skipped ↔
        lookupLast (parseEntries fx.src) (secNameOf ident) = none) ∧
    (testSnapshotsInner ident f fxs = RunOutcome.passed (tallyOf rs) ↔
        (tallyOf rs).succeeded = (tallyOf rs).processed) ∧
    (testSnapshotsInner ident f fxs = RunOutcome.testsFailed (tallyOf rs) ↔
        ¬ (tallyOf rs).succeeded = (tallyOf rs).processed) := by
  obtain ⟨h1, h2, h3⟩ := tally_fold rs ⟨0, 0, 0⟩
  refine ⟨by simpa [tallyOf] using h1, by simpa [tallyOf] using h2,
    by simpa [tallyOf] using h3,
    fun fx _ => processFixture_skipped ident f fx, ?_, ?_⟩
  · simp only [testSnapshotsInner, hok]
    by_cases hc : (tallyOf rs).succeeded = (tallyOf rs).processed
    · simp [hc]
    · simp [hc]
  · simp only [testSnapshotsInner, hok]
    by_cases hc : (tallyOf rs).succeeded = (tallyOf rs).processed
    · simp [hc]
    · simp [hc]

/-- Witness for C6: a batch of one matched and one skipped fixture. -/
theorem c6_tally_witness :
    (tallyOf [⟨Outcome.Matched, none, none⟩, ⟨Outcome.Skipped, none, none⟩]).processed =
      ([⟨Outcome.Matched, none, none⟩, ⟨Outcome.Skipped, none, none⟩] :
        List FixtureResult).countP (fun r => decide (r.outcome = Outcome.Matched ∨
          r.outcome = Outcome.Mismatched ∨ r.outcome = Outcome.Panicked)) :=
  (c6_tally tIdent (fConst yOut) [⟨exM, none, false, false⟩, ⟨exSkip, none, false, false⟩]
    [⟨Outcome.Matched, none, none⟩, ⟨Outcome.Skipped, none, none⟩] rfl).1

/-- Claim C7: when the function under test panics on a fixture that has
the requested Expected section, the outcome is the distinct Panicked one:
no diff is displayed (`displayOffset = none`), no patch is written and a
pre-existing sibling file is left untouched (the sibling state is
returned unchanged), and the tally counts the fixture as processed but
not succeeded, i.e. as a failure. -/
theorem c7_panicked (ident : List Char)
    (f : List (List Char × List Char) → Option (List Char)) (fx : Fixture) (sec : Entry)
    (hsec : lookupLast (parseEntries fx.src) (secNameOf ident) = some sec)
    (hf : f (inputsOf fx.src) = none) :
    processFixture ident f fx = ⟨Outcome.Panicked, fx.sibling, none⟩ ∧
    (∀ t : Tally, stepTally t Outcome.Panicked = ⟨t.processed + 1, t.succeeded, t.skipped⟩) :=
  ⟨by simp [processFixture, hsec, hf], fun _ => rfl⟩

/-- Witness for C7: a panicking run on `exM` with a stale sibling file. -/
theorem c7_panicked_witness :
    processFixture tIdent fPanic ⟨exM, some dummyPatch, false, false⟩ =
      ⟨Outcome.Panicked, some dummyPatch, none⟩ :=
  (c7_panicked tIdent fPanic ⟨exM, some dummyPatch, false, false⟩
    ⟨EntryKind.Expected, strL "expected.t", 7, strL "[expected.t]\ny\n\n", []⟩
    (by decide) rfl).1

/-- Claim C8, counterexample.  The claim says a patch-write error
terminates the whole batch immediately.  In the code the `Err` from
`assert_section` — I/O error included — is caught at lib.rs:231-233,
merely printed, and the loop continues: in a two-fixture batch whose
first fixture mismatches with a failing patch write (`ioFails = true`),
the second fixture is still processed (and matches), and the run does not
abort. -/
theorem c8_propagation_counterexample :
    (⟨exA, none, false, true⟩ : Fixture).ioFails = true ∧
    runFixtures tIdent (fConst yOut) [⟨exA, none, false, true⟩, ⟨exM, none, false, false⟩] =
      Except.ok [⟨Outcome.Mismatched, none, some 6⟩, ⟨Outcome.Matched, none, none⟩] ∧
    runFixtures tIdent (fConst yOut) [⟨exA, none, false, true⟩, ⟨exM, none, false, false⟩] ≠
      Except.error () :=
  ⟨rfl, rfl, fun h => nomatch h⟩

/-- Claim C8 (amended): per-fixture failures — content mismatch, panic,
and also sibling-patch write/delete errors — never abort the batch: with
no read failures every fixture is processed.  A discovery/read error for
any fixture aborts the whole batch.  A patch I/O error aborts only that
fixture's step: the fixture is reported as failed (Mismatched outcome,
counted processed and not succeeded) with the diff still displayed, and
the sibling file keeps its prior state. -/
theorem c8_propagation_amended :
    (∀ (ident : List Char) (f : List (List Char × List Char) → Option (List Char))
        (fxs : List Fixture), (∀ fx ∈ fxs, fx.readFails = false) →
        runFixtures ident f fxs = Except.ok (fxs.map (processFixture ident f))) ∧
    (∀ (ident : List Char) (f : List (List Char × List Char) → Option (List Char))
        (fxs : List Fixture) (fx : Fixture), fx ∈ fxs → fx.readFails = true →
        runFixtures ident f fxs = Except.error ()) ∧
    (∀ (ident : List Char) (f : List (List Char × List Char) → Option (List Char))
        (fx : Fixture) (sec : Entry) (out : List Char),
        lookupLast (parseEntries fx.src) (secNameOf ident) = some sec →
        f (inputsOf fx.src) = some out →
        fx.ioFails = true →
        ¬ sec.sectionText ++ sec.lastLineText =
          actualOf (secNameOf ident) out sec.lastLineText →
        processFixture ident f fx = ⟨Outcome.Mismatched, fx.sibling, some sec.line⟩) := by
  refine ⟨runFixtures_ok_all, ?_, ?_⟩
  · intro ident f fxs
    induction fxs with
    | nil => intro fx hm _; cases hm
    | cons fx0 rest ih =>
      intro fx hm hread
      rcases List.mem_cons.mp hm with hm | hm
      · subst hm
        simp [runFixtures, hread]
      · by_cases h0 : fx0.readFails
        · simp [runFixtures, h0]
        · simp [runFixtures, h0, ih fx hm hread]
  · intro ident f fx sec out hsec hf hio hneq
    simp only [processFixture, hsec, hf]
    simp [assertSection, hneq, hio]

/-- Witness for C8 (amended): each part applied at a concrete batch. -/
theorem c8_propagation_witness :
    runFixtures tIdent (fConst yOut) [⟨exA, none, false, true⟩] =
      Except.ok ([⟨exA, none, false, true⟩].map (processFixture tIdent (fConst yOut))) ∧
    runFixtures tIdent (fConst yOut) [⟨exA, none, true, false⟩] = Except.error () ∧
    processFixture tIdent (fConst yOut) ⟨exA, none, false, true⟩ =
      ⟨Outcome.Mismatched, none, some 6⟩ :=
  ⟨c8_propagation_amended.1 tIdent (fConst yOut) [⟨exA, none, false, true⟩] (by decide),
   c8_propagation_amended.2.1 tIdent (fConst yOut) [⟨exA, none, true, false⟩]
     ⟨exA, none, true, false⟩ (by decide) rfl,
   c8_propagation_amended.2.2 tIdent (fConst yOut) ⟨exA, none, false, true⟩
     ⟨EntryKind.Expected, strL "expected.t", 6, strL "[expected.t]\ny\n", []⟩ yOut
     (by decide) rfl rfl (by decide)⟩

/-- Claim C10: any text before the first well-formed header line belongs
to no section: every parsed section's stored range starts at or after the
first header's offset, so no position before it lies in any stored range
(hence such text is neither handed to the function under test nor
compared against an Expected section, both of which only ever see stored
slices). -/
theorem c10_leading_text (src : List Char) :
    ∀ s ∈ parseRaw src, firstHeaderOff src ≤ entryStartOf s ∧
      ∀ i, i < firstHeaderOff src → ¬ (entryStartOf s ≤ i ∧ i < s.endOff) := by
  intro s hs
  have hm := goodList_mem src.length (linesWithOffsets src) (parseRaw src) _
    (parseRaw_good src) s hs
  have hstart : firstHeaderOff src ≤ entryStartOf s := by
    cases hk : entryKindOf s.name with
    | Input => simpa [entryStartOf, hk] using le_trans hm.1 hm.2.1
    | Expected => simpa [entryStartOf, hk] using hm.1
  exact ⟨hstart, fun i hilt hcon => absurd (le_trans hstart hcon.1) (by omega)⟩

/-- Witness for C10 at the fixture `exLead` (whose first five characters
precede any header): position 0 is in no stored range. -/
theorem c10_leading_text_witness :
    firstHeaderOff exLead ≤ entryStartOf ⟨strL "a", 5, 8, 11, some (11, 23), 6⟩ ∧
    ¬ (entryStartOf ⟨strL "a", 5, 8, 11, some (11, 23), 6⟩ ≤ 0 ∧
        0 < (⟨strL "a", 5, 8, 11, some (11, 23), 6⟩ : RawSec).endOff) :=
  ⟨(c10_leading_text exLead ⟨strL "a", 5, 8, 11, some (11, 23), 6⟩ (by decide)).1,
   (c10_leading_text exLead ⟨strL "a", 5, 8, 11, some (11, 23), 6⟩ (by decide)).2 0 (by decide)⟩

end SnapshotRunner
